import Mathlib

/-!
# Verification of the Snake replay binary codec (`ReplayHandler.py`)

Shallow embedding of the replay codec of `src/ReplayHandler.py`:

* `encode_moves_bitpacked` — the bit packer (2-bit move codes, `11` terminator,
  continuation scan over the buffer's last byte);
* `encode_to_binary` — header serialization plus the segment-packing loop that
  threads the buffer's last byte through consecutive `encode_moves_bitpacked`
  calls;
* `decode_to_dict` — header parsing plus the continuous-bit-stream segment
  decoder.

Bytes are modelled as natural numbers below 256, byte sequences as `List Nat`.
Python `struct` with native format characters (`"H"`, `"I"`, `"B"`) uses the
platform's native byte order, which is little-endian on the x86-64/ARM
platforms this repository runs on; `struct.pack` rejects out-of-range values,
so the encoding functions are stated and proved under the corresponding range
hypotheses.
-/

/-- A move symbol: `'S'` (straight), `'R'` (turn right), `'L'` (turn left). -/
inductive Move where
  | S : Move
  | R : Move
  | L : Move
deriving DecidableEq

/-- The 2-bit code of a move (`mapping` dict in `encode_moves_bitpacked`):
`'S' ↦ 0b00`, `'R' ↦ 0b01`, `'L' ↦ 0b10`; `0b11` is the end-of-segment
terminator and never a move. -/
def mapping : Move → Nat
  | .S => 0
  | .R => 1
  | .L => 2

/-- The continuation scan at the start of `encode_moves_bitpacked`
(ReplayHandler.py lines 54-61): starting from `mask = 0b11` and shifting the
mask left by two bits for `i = 0, 1, 2`, the first 2-bit group of `lastbyte`
equal to `0b11` yields `bits = lastbyte >> 2*i` and `bit_len = 8 - 2*i`;
if no group matches, `bits = 0` and `bit_len = 0` (a fresh byte). -/
def scanLast (lastbyte : Nat) : Nat × Nat :=
  if lastbyte % 4 = 3 then (lastbyte, 8)
  else if lastbyte / 4 % 4 = 3 then (lastbyte / 4, 6)
  else if lastbyte / 16 % 4 = 3 then (lastbyte / 16, 4)
  else (0, 0)

/-- `int.to_bytes(n, "big")`: the `n`-byte big-endian representation of `v`. -/
def toBytesBE : Nat → Nat → List Nat
  | 0, _ => []
  | n + 1, v => toBytesBE n (v / 256) ++ [v % 256]

/-- `ReplayHandler.encode_moves_bitpacked(moves, lastbyte)`: resume from the
committed bits recovered by the scan of `lastbyte`, append each move's 2-bit
code and the terminator `0b11`, zero-pad to a byte boundary, and serialize
big-endian. -/
def encode_moves_bitpacked (moves : List Move) (lastbyte : Nat) : List Nat :=
  let s := scanLast lastbyte
  let p := moves.foldl (fun (q : Nat × Nat) m => (q.1 * 4 + mapping m, q.2 + 2)) s
  let bits := p.1 * 4 + 3
  let bitLen := p.2 + 2
  let pad := (8 - bitLen % 8) % 8
  toBytesBE ((bitLen + pad) / 8) (bits * 2 ^ pad)

/-- The segment-packing loop of `encode_to_binary` (lines 110-116): the
buffer holds a placeholder byte `0` to start with; each iteration packs one
segment against the current last byte, removes the buffer's last byte, and
appends the packed bytes.  `packLoop segs buf last` is the loop with the
remaining segments `segs`, the current segment-stream buffer `buf`, and the
current `last_seg_byte` value `last`. -/
def packLoop : List (List Move) → List Nat → Nat → List Nat
  | [], buf, _ => buf
  | seg :: rest, buf, last =>
    let packed := encode_moves_bitpacked seg last
    packLoop rest (buf.dropLast ++ packed) (packed.getLastD 0)

/-- The packed segment stream that `encode_to_binary` appends after the fixed
header: the packing loop started on the 1-byte placeholder buffer `[0]` with
`last_seg_byte = 0`. -/
def packSegments (segments : List (List Move)) : List Nat :=
  packLoop segments [0] 0

/-- The replay record handed to `encode_to_binary` (the relevant fields of the
input dictionary; `version` is a constant and never serialized). -/
structure ReplayRecord where
  score : Nat
  reason : Nat
  width : Nat
  height : Nat
  snake : List Nat
  seed : Nat
  segments : List (List Move)
deriving DecidableEq

/-- Native-order (little-endian) 2-byte serialization: `struct.pack("H", v)`.
`struct.pack` raises for `v ≥ 2^16`; theorems assume `v < 2^16`, under which
the `% 256` projections below are exact. -/
def le16 (v : Nat) : List Nat := [v % 256, v / 256 % 256]

/-- Native-order (little-endian) 4-byte serialization: `struct.pack("I", v)`. -/
def le32 (v : Nat) : List Nat :=
  [v % 256, v / 256 % 256, v / 65536 % 256, v / 16777216 % 256]

/-- The magic tag `b"SNAK"`. -/
def magicBytes : List Nat := [83, 78, 65, 75]

/-- The fixed-layout header written by `encode_to_binary` (lines 88-108):
magic, score (`"H"`), reason (`"B"`), width and height (`"BB"`), snake length
(`"B"`) followed by one `"H"` per snake cell, then the seed (`"I"`). -/
def encodeHeader (r : ReplayRecord) : List Nat :=
  magicBytes ++ le16 r.score ++ [r.reason % 256] ++ [r.width % 256, r.height % 256]
    ++ [r.snake.length % 256] ++ (r.snake.map le16).flatten ++ le32 r.seed

/-- `ReplayHandler.encode_to_binary(data)`: the fixed header followed by the
packed segment stream (which still contains the placeholder byte when the
segment list is empty). -/
def encode_to_binary (r : ReplayRecord) : List Nat :=
  encodeHeader r ++ packSegments r.segments

/-- The four 2-bit groups of a byte, most significant first — the values
`(byte >> 8 - (i+1)*2) & 0b11` for `i = 0, 1, 2, 3` read by the decode loop
(lines 161-162). -/
def byteGroups (b : Nat) : List Nat := [b / 64 % 4, b / 16 % 4, b / 4 % 4, b % 4]

/-- The decode loop's translation of a non-terminator 2-bit group back into a
move (lines 166-171). -/
def decodeMove (g : Nat) : Move :=
  if g = 0 then .S else if g = 1 then .R else .L

/-- One step of the segment decode loop: a terminator group closes the
accumulator segment, any other group appends a move to it. -/
def groupStep (acc : List (List Move) × List Move) (g : Nat) :
    List (List Move) × List Move :=
  if g = 3 then (acc.1 ++ [acc.2], [])
  else (acc.1, acc.2 ++ [decodeMove g])

/-- The segment decoder of `decode_to_dict` (lines 155-171): read the byte
sequence as one continuous stream of 2-bit groups, splitting at terminators.
When the stream ends, the still-open accumulator is discarded (the loop ends
without appending it). -/
def unpack_all (stream : List Nat) : List (List Move) :=
  (((stream.map byteGroups).flatten).foldl groupStep ([], [])).1

/-- The dictionary `decode_to_dict` returns.  Python's
`seed = struct.unpack_from("I", data, offset)` (line 151) has no trailing
comma, so the `seed` entry of the returned dictionary is the unpacked
one-element *tuple*, not the integer; `seedTuple` models it as the list of
tuple elements. -/
structure DecodedReplay where
  score : Nat
  reason : Nat
  width : Nat
  height : Nat
  snake : List Nat
  seedTuple : List Nat
  segments : List (List Move)
deriving DecidableEq

/-- Decode failures: `ValueError("Invalid file format")` on a bad magic tag,
or a `struct.error` from `unpack_from` hitting the end of the buffer. -/
inductive DecodeError where
  | invalidMagic : DecodeError
  | structError : DecodeError
deriving DecidableEq

/-- `struct.unpack_from("B", data, off)`: fails (with `struct.error`) when
fewer than 1 byte remains past `off`, else reads `data[off]`. -/
def readU8 (data : List Nat) (off : Nat) : Option Nat :=
  match data.drop off with
  | b :: _ => some b
  | [] => none

/-- `struct.unpack_from("H", data, off)` (native byte order = little-endian):
fails when fewer than 2 bytes remain past `off`, else reads
`data[off] + 256 * data[off+1]`. -/
def readU16le (data : List Nat) (off : Nat) : Option Nat :=
  match data.drop off with
  | b0 :: b1 :: _ => some (b0 + 256 * b1)
  | _ => none

/-- `struct.unpack_from("I", data, off)` (native byte order = little-endian):
fails when fewer than 4 bytes remain past `off`. -/
def readU32le (data : List Nat) (off : Nat) : Option Nat :=
  match data.drop off with
  | b0 :: b1 :: b2 :: b3 :: _ =>
    some (b0 + 256 * b1 + 65536 * b2 + 16777216 * b3)
  | _ => none

/-- The snake-position list comprehension of line 147: `n` 2-byte reads at
offsets `off + 2*i`. -/
def readSnake (data : List Nat) (off : Nat) : Nat → Option (List Nat)
  | 0 => some []
  | n + 1 => do
    let p ← readU16le data off
    let rest ← readSnake data (off + 2) n
    pure (p :: rest)

/-- The field reads of `decode_to_dict` after the magic check, any of which
can fail with a `struct.error` on truncated input. -/
def decodeBody (data : List Nat) : Option DecodedReplay := do
  let score ← readU16le data 4
  let reason ← readU8 data 6
  let width ← readU8 data 7
  let height ← readU8 data 8
  let n ← readU8 data 9
  let snake ← readSnake data 10 n
  let seedv ← readU32le data (10 + 2 * n)
  pure { score := score, reason := reason, width := width, height := height,
         snake := snake, seedTuple := [seedv],
         segments := unpack_all (data.drop (14 + 2 * n)) }

/-- `ReplayHandler.decode_to_dict` on the raw file bytes: the magic tag is
checked first (raising `ValueError` on mismatch, before any further parsing),
then the fixed fields are read and the remaining bytes are decoded as the
segment stream. -/
def decode_to_dict (data : List Nat) : Except DecodeError DecodedReplay :=
  if data.take 4 = magicBytes then
    match decodeBody data with
    | some d => .ok d
    | none => .error .structError
  else .error .invalidMagic

/-!
## Crumb view of the packed stream

All quantities in the packer and unpacker are 2-bit aligned, so proofs work
on lists of 2-bit groups ("crumbs", values `< 4`): a byte is four crumbs,
most significant first.
-/

/-- The value of a big-endian base-4 crumb string (the `bits` accumulator of
`encode_moves_bitpacked`). -/
def crumbsVal (l : List Nat) : Nat := l.foldl (fun a c => a * 4 + c) 0

/-- The crumbs a segment contributes to the stream: its moves' codes followed
by the terminator `0b11`. -/
def segCodes (s : List Move) : List Nat := s.map mapping ++ [3]

/-- The crumbs of a whole segment list. -/
def codesOf (segs : List (List Move)) : List Nat := (segs.map segCodes).flatten

/-- The number of zero pad crumbs appended after `n` crumbs to reach a byte
boundary. -/
def padCr (n : Nat) : Nat := (4 - n % 4) % 4

/-- A crumb string of length divisible by four, as bytes. -/
def crumbsToBytes : List Nat → List Nat
  | [] => []
  | [_] => []
  | [_, _] => []
  | [_, _, _] => []
  | c0 :: c1 :: c2 :: c3 :: rest => (c0 * 64 + c1 * 16 + c2 * 4 + c3) :: crumbsToBytes rest

theorem foldl_mul4 (l : List Nat) :
    ∀ a : Nat, l.foldl (fun x c => x * 4 + c) a = a * 4 ^ l.length + crumbsVal l := by
  induction l with
  | nil => intro a; simp [crumbsVal]
  | cons c l ih =>
    intro a
    show l.foldl _ (a * 4 + c) = _
    rw [ih (a * 4 + c)]
    have : crumbsVal (c :: l) = c * 4 ^ l.length + crumbsVal l := by
      show l.foldl _ (0 * 4 + c) = _
      rw [ih (0 * 4 + c)]; ring
    rw [this]
    simp [List.length_cons, pow_succ]
    ring

theorem crumbsVal_append (xs ys : List Nat) :
    crumbsVal (xs ++ ys) = crumbsVal xs * 4 ^ ys.length + crumbsVal ys := by
  show (xs ++ ys).foldl _ 0 = _
  rw [List.foldl_append, foldl_mul4]
  rfl

theorem crumbsVal_concat (xs : List Nat) (x : Nat) :
    crumbsVal (xs ++ [x]) = crumbsVal xs * 4 + x := by
  rw [crumbsVal_append]
  simp [crumbsVal]

theorem crumbsVal_replicate_zero (k : Nat) : crumbsVal (List.replicate k 0) = 0 := by
  induction k with
  | zero => rfl
  | succ k ih =>
    show (List.replicate (k + 1) 0).foldl _ 0 = 0
    rw [List.replicate_succ]
    exact ih

theorem crumbsVal_append_zeros (l : List Nat) (k : Nat) :
    crumbsVal (l ++ List.replicate k 0) = crumbsVal l * 4 ^ k := by
  rw [crumbsVal_append, crumbsVal_replicate_zero, List.length_replicate]
  simp

theorem foldl_mul4_lt (l : List Nat) :
    ∀ a : Nat, (∀ c ∈ l, c < 4) → l.foldl (fun x c => x * 4 + c) a < (a + 1) * 4 ^ l.length := by
  induction l with
  | nil => intro a _; simpa using Nat.lt_succ_self a
  | cons c l ih =>
    intro a h
    show l.foldl _ (a * 4 + c) < _
    have hc : c < 4 := h c (by simp)
    have := ih (a * 4 + c) (fun x hx => h x (by simp [hx]))
    calc l.foldl _ (a * 4 + c) < (a * 4 + c + 1) * 4 ^ l.length := this
      _ ≤ ((a + 1) * 4) * 4 ^ l.length := by
          apply Nat.mul_le_mul_right
          omega
      _ = (a + 1) * 4 ^ (c :: l).length := by
          simp [List.length_cons, pow_succ]; ring

theorem crumbsVal_lt (l : List Nat) (h : ∀ c ∈ l, c < 4) :
    crumbsVal l < 4 ^ l.length := by
  have := foldl_mul4_lt l 0 h
  simpa [crumbsVal] using this

theorem crumbsVal_mod4 (xs : List Nat) (x : Nat) (hx : x < 4) :
    crumbsVal (xs ++ [x]) % 4 = x := by
  rw [crumbsVal_concat]
  omega

theorem crumbsToBytes_concat4 (l : List Nat) (a b c d : Nat) (h : l.length % 4 = 0) :
    crumbsToBytes (l ++ [a, b, c, d])
      = crumbsToBytes l ++ [a * 64 + b * 16 + c * 4 + d] := by
  induction l using crumbsToBytes.induct with
  | case1 => rfl
  | case2 => simp at h
  | case3 => simp at h
  | case4 => simp at h
  | case5 c0 c1 c2 c3 rest ih =>
    have : rest.length % 4 = 0 := by simp [List.length_cons] at h; omega
    show (c0 * 64 + c1 * 16 + c2 * 4 + c3) :: crumbsToBytes (rest ++ [a, b, c, d]) = _
    rw [ih this]
    rfl

theorem crumbsToBytes_append (xs ys : List Nat) (h : xs.length % 4 = 0) :
    crumbsToBytes (xs ++ ys) = crumbsToBytes xs ++ crumbsToBytes ys := by
  induction xs using crumbsToBytes.induct with
  | case1 => rfl
  | case2 => simp at h
  | case3 => simp at h
  | case4 => simp at h
  | case5 c0 c1 c2 c3 rest ih =>
    have : rest.length % 4 = 0 := by simp [List.length_cons] at h; omega
    show (c0 * 64 + c1 * 16 + c2 * 4 + c3) :: crumbsToBytes (rest ++ ys) = _
    rw [ih this]
    rfl

theorem crumbsToBytes_length (l : List Nat) :
    (crumbsToBytes l).length = l.length / 4 := by
  induction l using crumbsToBytes.induct with
  | case1 => rfl
  | case2 => simp [crumbsToBytes]
  | case3 => simp [crumbsToBytes]
  | case4 => simp [crumbsToBytes]
  | case5 c0 c1 c2 c3 rest ih =>
    show (crumbsToBytes rest).length + 1 = _
    rw [ih]
    simp [List.length_cons]
    omega

theorem toBytesBE_length (n : Nat) : ∀ v, (toBytesBE n v).length = n := by
  induction n with
  | zero => intro v; rfl
  | succ n ih => intro v; show (toBytesBE n (v / 256) ++ [v % 256]).length = n + 1; simp [ih]

theorem length_four_eq (l : List Nat) (h : l.length = 4) :
    ∃ a b c d, l = [a, b, c, d] := by
  match l, h with
  | [a, b, c, d], _ => exact ⟨a, b, c, d, rfl⟩

theorem toBytesBE_crumbs : ∀ (n : Nat) (cs : List Nat), cs.length = 4 * n →
    (∀ c ∈ cs, c < 4) → toBytesBE n (crumbsVal cs) = crumbsToBytes cs := by
  intro n
  induction n with
  | zero =>
    intro cs hlen _
    have : cs = [] := List.length_eq_zero.mp (by omega)
    subst this; rfl
  | succ n ih =>
    intro cs hlen hlt
    have h4 : 4 ≤ cs.length := by omega
    have hsplit : cs = cs.take (cs.length - 4) ++ cs.drop (cs.length - 4) :=
      (List.take_append_drop _ _).symm
    have hdlen : (cs.drop (cs.length - 4)).length = 4 := by
      simp [List.length_drop]; omega
    obtain ⟨a, b, c, d, habcd⟩ := length_four_eq _ hdlen
    have htlen : (cs.take (cs.length - 4)).length = 4 * n := by
      simp [List.length_take]; omega
    have hlt' : ∀ x ∈ cs.take (cs.length - 4), x < 4 := fun x hx =>
      hlt x (List.mem_of_mem_take hx)
    have habcdlt : a < 4 ∧ b < 4 ∧ c < 4 ∧ d < 4 := by
      refine ⟨?_, ?_, ?_, ?_⟩ <;>
        [exact hlt a (by rw [hsplit, habcd]; simp);
         exact hlt b (by rw [hsplit, habcd]; simp);
         exact hlt c (by rw [hsplit, habcd]; simp);
         exact hlt d (by rw [hsplit, habcd]; simp)]
    rw [hsplit, habcd]
    rw [crumbsVal_append]
    have hbyte : crumbsVal [a, b, c, d] = a * 64 + b * 16 + c * 4 + d := by
      show List.foldl _ 0 _ = _
      simp [List.foldl]
      ring
    have hbytelt : crumbsVal [a, b, c, d] < 256 := by
      have := crumbsVal_lt [a, b, c, d] (by
        intro x hx
        rcases habcdlt with ⟨h1, h2, h3, h4'⟩
        simp at hx
        rcases hx with rfl | rfl | rfl | rfl <;> assumption)
      simpa using this
    show toBytesBE n _ ++ [_ % 256] = _
    have hlen4 : ([a, b, c, d] : List Nat).length = 4 := rfl
    rw [hlen4]
    have hdiv : (crumbsVal (cs.take (cs.length - 4)) * 4 ^ 4 + crumbsVal [a, b, c, d]) / 256
        = crumbsVal (cs.take (cs.length - 4)) := by
      have : (4 : Nat) ^ 4 = 256 := by norm_num
      rw [this]
      omega
    have hmod : (crumbsVal (cs.take (cs.length - 4)) * 4 ^ 4 + crumbsVal [a, b, c, d]) % 256
        = crumbsVal [a, b, c, d] := by
      have : (4 : Nat) ^ 4 = 256 := by norm_num
      rw [this]
      omega
    rw [hdiv, hmod, ih _ htlen hlt', hbyte,
      crumbsToBytes_concat4 _ _ _ _ _ (by omega)]

theorem byteGroups_crumbs (a b c d : Nat) (ha : a < 4) (hb : b < 4) (hc : c < 4)
    (hd : d < 4) : byteGroups (a * 64 + b * 16 + c * 4 + d) = [a, b, c, d] := by
  simp only [byteGroups, List.cons.injEq, and_true]
  omega

theorem crumbsToBytes_groups (l : List Nat) (h : ∀ c ∈ l, c < 4) :
    l.length % 4 = 0 → ((crumbsToBytes l).map byteGroups).flatten = l := by
  induction l using crumbsToBytes.induct with
  | case1 => intro _; rfl
  | case2 => intro hl; simp at hl
  | case3 => intro hl; simp at hl
  | case4 => intro hl; simp at hl
  | case5 c0 c1 c2 c3 rest ih =>
    intro hl
    have hrest : rest.length % 4 = 0 := by simp [List.length_cons] at hl; omega
    have h0 : c0 < 4 := h c0 (by simp)
    have h1 : c1 < 4 := h c1 (by simp)
    have h2 : c2 < 4 := h c2 (by simp)
    have h3 : c3 < 4 := h c3 (by simp)
    show (byteGroups (c0 * 64 + c1 * 16 + c2 * 4 + c3) ::
      (crumbsToBytes rest).map byteGroups).flatten = _
    rw [List.flatten_cons, byteGroups_crumbs _ _ _ _ h0 h1 h2 h3,
      ih (fun x hx => h x (by simp [hx])) hrest]
    rfl

theorem mapping_lt (m : Move) : mapping m < 4 := by cases m <;> simp [mapping]

theorem segCodes_length (s : List Move) : (segCodes s).length = s.length + 1 := by
  simp [segCodes]

theorem segCodes_lt (s : List Move) : ∀ c ∈ segCodes s, c < 4 := by
  intro c hc
  simp only [segCodes, List.mem_append, List.mem_map, List.mem_singleton] at hc
  rcases hc with ⟨m, _, rfl⟩ | rfl
  · exact mapping_lt m
  · omega

theorem codesOf_nil : codesOf [] = [] := rfl

theorem codesOf_cons (s : List Move) (rest : List (List Move)) :
    codesOf (s :: rest) = segCodes s ++ codesOf rest := by
  simp [codesOf]

theorem codesOf_lt (segs : List (List Move)) : ∀ c ∈ codesOf segs, c < 4 := by
  induction segs with
  | nil => intro c hc; simp [codesOf] at hc
  | cons s rest ih =>
    intro c hc
    rw [codesOf_cons] at hc
    rcases List.mem_append.mp hc with h | h
    · exact segCodes_lt s c h
    · exact ih c h

theorem packFold (moves : List Move) :
    ∀ v L : Nat,
      moves.foldl (fun (q : Nat × Nat) m => (q.1 * 4 + mapping m, q.2 + 2)) (v, L)
        = ((moves.map mapping).foldl (fun a c => a * 4 + c) v, L + 2 * moves.length) := by
  induction moves with
  | nil => intro v L; simp
  | cons m ms ih =>
    intro v L
    show ms.foldl _ (v * 4 + mapping m, L + 2) = _
    rw [ih]
    simp only [List.map_cons, List.foldl_cons, List.length_cons, Prod.mk.injEq]
    exact ⟨trivial, by omega⟩

theorem encode_length (seg : List Move) (lastbyte : Nat) :
    (encode_moves_bitpacked seg lastbyte).length
      = ((scanLast lastbyte).2 + 2 * seg.length + 2 + 7) / 8 := by
  rcases hs : scanLast lastbyte with ⟨v, L⟩
  simp only [encode_moves_bitpacked, hs, packFold, toBytesBE_length]
  omega

theorem encode_ne_nil (seg : List Move) (lastbyte : Nat) :
    encode_moves_bitpacked seg lastbyte ≠ [] := by
  have h := encode_length seg lastbyte
  intro hnil
  rw [hnil] at h
  simp at h
  omega

theorem scanLen_le (lastbyte : Nat) : (scanLast lastbyte).2 ≤ 8 := by
  unfold scanLast
  split <;> try simp
  split <;> try simp
  split <;> simp

/-- The heart of the packer: when the scan recovers `D`'s crumbs (`D` ending
in a terminator), the emitted bytes are exactly `D`'s crumbs, the segment's
codes, its terminator, and the zero padding to the next byte boundary. -/
theorem pack_eq (seg : List Move) (lastbyte : Nat) (D : List Nat)
    (hD : ∀ c ∈ D, c < 4)
    (hscan : scanLast lastbyte = (crumbsVal D, 2 * D.length)) :
    encode_moves_bitpacked seg lastbyte
      = crumbsToBytes (D ++ segCodes seg
          ++ List.replicate (padCr (D.length + seg.length + 1)) 0) := by
  have hE : D ++ segCodes seg = (D ++ seg.map mapping) ++ [3] := by
    simp [segCodes]
  simp only [encode_moves_bitpacked, hscan, packFold]
  have hfold : (seg.map mapping).foldl (fun a c => a * 4 + c) (crumbsVal D)
      = crumbsVal (D ++ seg.map mapping) := by
    rw [foldl_mul4, crumbsVal_append, List.length_map]
  rw [hfold]
  set M := D.length + seg.length + 1 with hM
  set q := padCr M with hq
  have hq4 : (M + q) % 4 = 0 := by simp only [hq, padCr]; omega
  have hpad : (8 - (2 * D.length + 2 * seg.length + 2) % 8) % 8 = 2 * q := by
    simp only [hq, padCr, hM]; omega
  rw [hpad]
  have hbits : crumbsVal (D ++ seg.map mapping) * 4 + 3
      = crumbsVal (D ++ segCodes seg) := by
    rw [hE, crumbsVal_concat]
  rw [hbits]
  have h2q : (2 : ℕ) ^ (2 * q) = 4 ^ q := by
    rw [pow_mul]; norm_num
  rw [h2q, ← crumbsVal_append_zeros]
  have hn : (2 * D.length + 2 * seg.length + 2 + 2 * q) / 8 = (M + q) / 4 := by
    omega
  rw [hn]
  have hlen : ((D ++ segCodes seg) ++ List.replicate q 0).length = 4 * ((M + q) / 4) := by
    simp only [List.length_append, segCodes_length, List.length_replicate, hM] at hq4 ⊢
    omega
  have hlt : ∀ c ∈ (D ++ segCodes seg) ++ List.replicate q 0, c < 4 := by
    intro c hc
    rcases List.mem_append.mp hc with h | h
    · rcases List.mem_append.mp h with h' | h'
      · exact hD c h'
      · exact segCodes_lt seg c h'
    · have := List.eq_of_mem_replicate h
      omega
  rw [toBytesBE_crumbs _ _ hlen hlt]

theorem scanLast_term (v p : Nat) (hv : v % 4 = 3) (hp : p ≤ 2) :
    scanLast (v * 4 ^ p) = (v, 2 * (4 - p)) := by
  interval_cases p
  · simp only [pow_zero, mul_one, scanLast, hv, if_pos]
  · show scanLast (v * 4) = (v, 6)
    unfold scanLast
    rw [if_neg (by omega), if_pos (by omega)]
    have : v * 4 / 4 = v := by omega
    rw [this]
  · show scanLast (v * 16) = (v, 4)
    unfold scanLast
    rw [if_neg (by omega), if_neg (by omega), if_pos (by omega)]
    have : v * 16 / 16 = v := by omega
    rw [this]

theorem getLastD_irrel (ys : List Nat) (h : ys ≠ []) (d d' : Nat) :
    ys.getLastD d = ys.getLastD d' := by
  cases ys with
  | nil => exact absurd rfl h
  | cons y l => rfl

theorem getLastD_append (xs ys : List Nat) (h : ys ≠ []) :
    (xs ++ ys).getLastD 0 = ys.getLastD 0 := by
  induction xs with
  | nil => rfl
  | cons x xs ih =>
    rw [List.cons_append, List.getLastD_cons,
      getLastD_irrel (xs ++ ys) (by simp [h]) x 0, ih]

/-- The last byte of a crumb string `B ++ [3]` padded to a byte boundary:
the byte holding the final terminator crumb shifted above the zero padding. -/
theorem last_byte_eq (C : List Nat) (hne : C ≠ []) :
    (crumbsToBytes (C ++ List.replicate (padCr C.length) 0)).getLastD 0
      = crumbsVal (C.drop (C.length - (4 - padCr C.length))) * 4 ^ padCr C.length := by
  set p := padCr C.length with hp
  have hp4 : p < 4 := by simp only [hp, padCr]; omega
  have hpos : 1 ≤ C.length := List.length_pos.mpr hne
  have hCp4 : (C.length + p) % 4 = 0 := by simp only [hp, padCr]; omega
  have hle : 4 - p ≤ C.length := by omega
  set m := C.length - (4 - p) with hm
  have hsplit : C.take m ++ C.drop m = C := List.take_append_drop m C
  have hdlen : (C.drop m).length = 4 - p := by
    simp only [List.length_drop]; omega
  have htlen : (C.take m).length % 4 = 0 := by
    simp only [List.length_take]; omega
  have hfour : (C.drop m ++ List.replicate p 0).length = 4 := by
    simp only [List.length_append, List.length_replicate, hdlen]; omega
  obtain ⟨a, b, c, d, habcd⟩ := length_four_eq _ hfour
  have hassoc : C ++ List.replicate p 0 = C.take m ++ (C.drop m ++ List.replicate p 0) := by
    rw [← List.append_assoc, hsplit]
  rw [hassoc, crumbsToBytes_append _ _ htlen, habcd]
  have hbyte : crumbsToBytes [a, b, c, d] = [a * 64 + b * 16 + c * 4 + d] := by
    simp [crumbsToBytes]
  rw [hbyte]
  have hlastD : (crumbsToBytes (C.take m) ++ [a * 64 + b * 16 + c * 4 + d]).getLastD 0
      = a * 64 + b * 16 + c * 4 + d := by simp
  rw [hlastD, ← crumbsVal_append_zeros, habcd]
  show _ = crumbsVal [a, b, c, d]
  simp [crumbsVal, List.foldl]
  ring

/-- Scanning the padded last byte of a committed crumb string `B ++ [3]`
recovers exactly the crumbs sharing that byte, provided the padding is not
three crumbs (six bits) long. -/
theorem scan_of_good (B : List Nat)
    (hpad : (B.length + 1) % 4 ≠ 1) :
    scanLast ((crumbsToBytes ((B ++ [3])
        ++ List.replicate (padCr (B.length + 1)) 0)).getLastD 0)
      = (crumbsVal ((B ++ [3]).drop (B.length + 1 - (4 - padCr (B.length + 1)))),
         2 * (4 - padCr (B.length + 1))) := by
  have hne : B ++ [3] ≠ [] := by simp
  have hlen : (B ++ [3]).length = B.length + 1 := by simp
  have heq := last_byte_eq (B ++ [3]) hne
  rw [hlen] at heq
  rw [heq]
  set p := padCr (B.length + 1) with hp
  have hp2 : p ≤ 2 := by simp only [hp, padCr]; omega
  set m := B.length + 1 - (4 - p) with hm
  have hmB : m ≤ B.length := by omega
  have hdrop : (B ++ [3]).drop m = B.drop m ++ [3] := by
    rw [List.drop_append_eq_append_drop, Nat.sub_eq_zero_of_le hmB, List.drop_zero]
  have hv3 : crumbsVal ((B ++ [3]).drop m) % 4 = 3 := by
    rw [hdrop, crumbsVal_concat]
    omega
  exact scanLast_term _ p hv3 hp2

theorem padCr_mod (a b : Nat) (h : a % 4 = b % 4) : padCr a = padCr b := by
  simp only [padCr, h]

theorem crumbsToBytes_ne_nil (l : List Nat) (h : 4 ≤ l.length) :
    crumbsToBytes l ≠ [] := by
  have hlen := crumbsToBytes_length l
  intro hnil
  rw [hnil] at hlen
  simp at hlen
  omega

/-- The byte buffer of a committed crumb string splits into the full bytes
before the last one and the final padded byte. -/
theorem crumbsToBytes_pad_split (C : List Nat) (hne : C ≠ []) :
    crumbsToBytes (C ++ List.replicate (padCr C.length) 0)
      = crumbsToBytes (C.take (C.length - (4 - padCr C.length)))
        ++ [crumbsVal (C.drop (C.length - (4 - padCr C.length))) * 4 ^ padCr C.length] := by
  set p := padCr C.length with hp
  have hp4 : p < 4 := by simp only [hp, padCr]; omega
  have hpos : 1 ≤ C.length := List.length_pos.mpr hne
  have hCp4 : (C.length + p) % 4 = 0 := by simp only [hp, padCr]; omega
  have hle : 4 - p ≤ C.length := by omega
  set m := C.length - (4 - p) with hm
  have hsplit : C.take m ++ C.drop m = C := List.take_append_drop m C
  have hdlen : (C.drop m).length = 4 - p := by
    simp only [List.length_drop]; omega
  have htlen : (C.take m).length % 4 = 0 := by
    simp only [List.length_take]; omega
  have hfour : (C.drop m ++ List.replicate p 0).length = 4 := by
    simp only [List.length_append, List.length_replicate, hdlen]; omega
  obtain ⟨a, b, c, d, habcd⟩ := length_four_eq _ hfour
  have hassoc : C ++ List.replicate p 0 = C.take m ++ (C.drop m ++ List.replicate p 0) := by
    rw [← List.append_assoc, hsplit]
  rw [hassoc, crumbsToBytes_append _ _ htlen, habcd]
  have hbyte : crumbsToBytes [a, b, c, d] = [a * 64 + b * 16 + c * 4 + d] := by
    simp [crumbsToBytes]
  rw [hbyte, ← crumbsVal_append_zeros, habcd]
  have : crumbsVal [a, b, c, d] = a * 64 + b * 16 + c * 4 + d := by
    simp [crumbsVal, List.foldl]
    ring
  rw [this]

/-- The packing loop, started on a buffer committed up to a terminator with
byte-boundary padding that the scan can detect, extends the committed crumbs
by each remaining segment's codes, as long as no intermediate state ends up
with three crumbs of padding. -/
theorem packLoop_eq : ∀ (segs : List (List Move)) (B : List Nat),
    (∀ c ∈ B, c < 4) →
    (∀ k, k < segs.length → (B.length + 1 + (codesOf (segs.take k)).length) % 4 ≠ 1) →
    packLoop segs
        (crumbsToBytes ((B ++ [3]) ++ List.replicate (padCr (B.length + 1)) 0))
        ((crumbsToBytes ((B ++ [3]) ++ List.replicate (padCr (B.length + 1)) 0)).getLastD 0)
      = crumbsToBytes ((B ++ [3]) ++ codesOf segs
          ++ List.replicate (padCr (B.length + 1 + (codesOf segs).length)) 0) := by
  intro segs
  induction segs with
  | nil =>
    intro B _ _
    show crumbsToBytes ((B ++ [3]) ++ List.replicate (padCr (B.length + 1)) 0) = _
    rw [codesOf_nil]
    simp
  | cons seg rest ih =>
    intro B hB hgood
    have hpad0 : (B.length + 1) % 4 ≠ 1 := by
      have h := hgood 0 (by simp)
      simpa [codesOf_nil] using h
    set C : List Nat := B ++ [3] with hC
    have hCne : C ≠ [] := by simp [hC]
    have hClen : C.length = B.length + 1 := by simp [hC]
    set p := padCr (B.length + 1) with hp
    have hpdef : p = (4 - (B.length + 1) % 4) % 4 := by rw [hp]; rfl
    have hp2 : p ≤ 2 := by omega
    set m := B.length + 1 - (4 - p) with hm
    set D : List Nat := C.drop m with hD
    have hD_lt : ∀ c ∈ D, c < 4 := by
      intro c hc
      have hc' : c ∈ C := List.drop_subset m C hc
      rcases (by simpa [hC] using hc' : c ∈ B ∨ c = 3) with h | rfl
      · exact hB c h
      · omega
    have hD_len : D.length = 4 - p := by
      simp only [hD, List.length_drop, hClen]; omega
    have hscan := scan_of_good B hpad0
    have hscan' : scanLast ((crumbsToBytes (C ++ List.replicate p 0)).getLastD 0)
        = (crumbsVal D, 2 * D.length) := by
      rw [hD_len, hD, hC, hm, hp]
      exact hscan
    have hpacked := pack_eq seg _ D hD_lt hscan'
    have hsplitC := crumbsToBytes_pad_split C hCne
    rw [hClen, ← hp, ← hm] at hsplitC
    set q := padCr (D.length + seg.length + 1) with hq
    have hqdef : q = (4 - (D.length + seg.length + 1) % 4) % 4 := by rw [hq]; rfl
    have htm4 : (C.take m).length % 4 = 0 := by
      simp only [List.length_take, hClen]; omega
    have hq' : q = padCr (C.length + seg.length + 1) := by
      rw [hq]
      apply padCr_mod
      omega
    show packLoop rest
        ((crumbsToBytes (C ++ List.replicate p 0)).dropLast
          ++ encode_moves_bitpacked seg
              ((crumbsToBytes (C ++ List.replicate p 0)).getLastD 0))
        ((encode_moves_bitpacked seg
            ((crumbsToBytes (C ++ List.replicate p 0)).getLastD 0)).getLastD 0) = _
    have hdropLast : (crumbsToBytes (C ++ List.replicate p 0)).dropLast
        = crumbsToBytes (C.take m) := by
      rw [hsplitC]; simp
    have hjoin : crumbsToBytes (C.take m)
          ++ crumbsToBytes (D ++ segCodes seg ++ List.replicate q 0)
        = crumbsToBytes ((C ++ segCodes seg) ++ List.replicate q 0) := by
      rw [← crumbsToBytes_append _ _ htm4]
      have harr : C.take m ++ (D ++ segCodes seg ++ List.replicate q 0)
          = (C ++ segCodes seg) ++ List.replicate q 0 := by
        simp only [hD, ← List.append_assoc, List.take_append_drop]
      rw [harr]
    have hpack_ne : crumbsToBytes (D ++ segCodes seg ++ List.replicate q 0) ≠ [] := by
      apply crumbsToBytes_ne_nil
      simp only [List.length_append, segCodes_length, List.length_replicate]
      omega
    have hlast2 : (crumbsToBytes (D ++ segCodes seg ++ List.replicate q 0)).getLastD 0
        = (crumbsToBytes ((C ++ segCodes seg) ++ List.replicate q 0)).getLastD 0 := by
      rw [← hjoin, getLastD_append _ _ hpack_ne]
    rw [hpacked, hdropLast, hjoin, hlast2]
    -- the new committed crumb string is (B ++ [3] ++ seg.map mapping) ++ [3]
    set B' : List Nat := B ++ [3] ++ seg.map mapping with hB'
    have hCseg : C ++ segCodes seg = B' ++ [3] := by
      simp [hB', hC, segCodes, List.append_assoc]
    have hB'len : B'.length + 1 = C.length + seg.length + 1 := by
      simp [hB', hClen, hC]
      omega
    have hB'lt : ∀ c ∈ B', c < 4 := by
      intro c hc
      rcases (by simpa [hB'] using hc :
          c ∈ B ∨ c = 3 ∨ ∃ mv ∈ seg, mapping mv = c) with h | rfl | ⟨mv, _, rfl⟩
      · exact hB c h
      · omega
      · exact mapping_lt mv
    have hgood' : ∀ k, k < rest.length →
        (B'.length + 1 + (codesOf (rest.take k)).length) % 4 ≠ 1 := by
      intro k hk
      have h := hgood (k + 1) (by simpa using Nat.succ_lt_succ hk)
      rw [List.take_succ_cons, codesOf_cons] at h
      simp only [List.length_append, segCodes_length] at h
      have hlen' : B'.length + 1 = B.length + 1 + (seg.length + 1) := by
        rw [hB'len, hClen]
        omega
      omega
    have hq'' : q = padCr (B'.length + 1) := by rw [hq', hB'len]
    have hbuf : crumbsToBytes ((C ++ segCodes seg) ++ List.replicate q 0)
        = crumbsToBytes ((B' ++ [3]) ++ List.replicate (padCr (B'.length + 1)) 0) := by
      rw [hCseg, hq'']
    rw [hbuf, ih B' hB'lt hgood', ← hCseg, codesOf_cons]
    have hfin : (C ++ segCodes seg) ++ codesOf rest = C ++ (segCodes seg ++ codesOf rest) := by
      simp [List.append_assoc]
    have hfinlen : B'.length + 1 + (codesOf rest).length
        = B.length + 1 + (segCodes seg ++ codesOf rest).length := by
      simp only [List.length_append, segCodes_length]
      rw [hB'len, hClen]
      omega
    rw [hfin, hfinlen]

/-- No proper nonempty prefix of the segment list packs to a total crumb
count congruent to 1 mod 4 (equivalently, no intermediate `pack` call leaves
exactly six bits of zero padding in the buffer's last byte). -/
def goodSegs (segs : List (List Move)) : Prop :=
  ∀ k, k < segs.length → 0 < k → (codesOf (segs.take k)).length % 4 ≠ 1

instance goodSegsDecidable (segs : List (List Move)) : Decidable (goodSegs segs) :=
  inferInstanceAs (Decidable (∀ k, k < segs.length → 0 < k
    → (codesOf (segs.take k)).length % 4 ≠ 1))

theorem packSegments_eq (segs : List (List Move)) (hne : segs ≠ [])
    (hgood : goodSegs segs) :
    packSegments segs
      = crumbsToBytes (codesOf segs
          ++ List.replicate (padCr (codesOf segs).length) 0) := by
  match segs, hne with
  | seg :: rest, _ =>
    have hscan0 : scanLast 0 = (crumbsVal ([] : List Nat), 2 * ([] : List Nat).length) := by
      decide
    have hpacked : encode_moves_bitpacked seg 0
        = crumbsToBytes (segCodes seg ++ List.replicate (padCr (seg.length + 1)) 0) := by
      have h := pack_eq seg 0 [] (by intro c hc; simp at hc) hscan0
      simpa using h
    show packLoop rest (([0] : List Nat).dropLast ++ encode_moves_bitpacked seg 0)
        ((encode_moves_bitpacked seg 0).getLastD 0) = _
    have hdrop : ([0] : List Nat).dropLast = [] := rfl
    rw [hdrop, List.nil_append, hpacked]
    set B : List Nat := seg.map mapping with hB
    have hBseg : segCodes seg = B ++ [3] := rfl
    have hBlen : B.length + 1 = seg.length + 1 := by simp [hB]
    have hBlt : ∀ c ∈ B, c < 4 := by
      intro c hc
      simp only [hB, List.mem_map] at hc
      obtain ⟨mv, _, rfl⟩ := hc
      exact mapping_lt mv
    have hgood' : ∀ k, k < rest.length →
        (B.length + 1 + (codesOf (rest.take k)).length) % 4 ≠ 1 := by
      intro k hk
      have h := hgood (k + 1) (by simpa using Nat.succ_lt_succ hk) (by omega)
      rw [List.take_succ_cons, codesOf_cons] at h
      simp only [List.length_append, segCodes_length] at h
      omega
    rw [hBseg, ← hBlen]
    rw [packLoop_eq rest B hBlt hgood']
    rw [codesOf_cons, hBseg]
    have hlen : B.length + 1 + (codesOf rest).length
        = ((B ++ [3]) ++ codesOf rest).length := by
      simp
      omega
    rw [hlen]

theorem foldl_groupStep_moves (s : List Move) :
    ∀ (d : List (List Move)) (c : List Move),
      (s.map mapping).foldl groupStep (d, c) = (d, c ++ s) := by
  induction s with
  | nil => intro d c; simp
  | cons m ms ih =>
    intro d c
    have hm3 : mapping m ≠ 3 := by cases m <;> simp [mapping]
    have hdm : decodeMove (mapping m) = m := by cases m <;> rfl
    show (ms.map mapping).foldl groupStep (groupStep (d, c) (mapping m)) = _
    rw [groupStep, if_neg hm3]
    simp only [hdm]
    rw [ih d (c ++ [m])]
    simp

theorem foldl_groupStep_codes (segs : List (List Move)) :
    ∀ (d : List (List Move)) (extra : List Nat),
      (codesOf segs ++ extra).foldl groupStep (d, [])
        = extra.foldl groupStep (d ++ segs, []) := by
  induction segs with
  | nil => intro d extra; simp [codesOf_nil]
  | cons s rest ih =>
    intro d extra
    rw [codesOf_cons]
    have hassoc : (segCodes s ++ codesOf rest) ++ extra
        = s.map mapping ++ (3 :: (codesOf rest ++ extra)) := by
      simp [segCodes, List.append_assoc]
    rw [hassoc, List.foldl_append, foldl_groupStep_moves]
    show (codesOf rest ++ extra).foldl groupStep (groupStep (d, [] ++ s) 3) = _
    rw [groupStep, if_pos rfl]
    simp only [List.nil_append]
    rw [ih (d ++ [s]) extra]
    simp

theorem foldl_groupStep_zeros (n : Nat) :
    ∀ (d : List (List Move)) (c : List Move),
      (List.replicate n 0).foldl groupStep (d, c)
        = (d, c ++ List.replicate n Move.S) := by
  induction n with
  | zero => intro d c; simp
  | succ n ih =>
    intro d c
    rw [List.replicate_succ]
    show (List.replicate n 0).foldl groupStep (groupStep (d, c) 0) = _
    rw [groupStep, if_neg (by omega)]
    have : decodeMove 0 = Move.S := rfl
    rw [this, ih d (c ++ [Move.S])]
    simp [List.replicate_succ]

theorem unpack_packSegments (segs : List (List Move)) (hgood : goodSegs segs) :
    unpack_all (packSegments segs) = segs := by
  by_cases hne : segs = []
  · subst hne; decide
  · rw [packSegments_eq segs hne hgood]
    unfold unpack_all
    have hlt : ∀ c ∈ codesOf segs ++ List.replicate (padCr (codesOf segs).length) 0,
        c < 4 := by
      intro c hc
      rcases List.mem_append.mp hc with h | h
      · exact codesOf_lt segs c h
      · have := List.eq_of_mem_replicate h
        omega
    have hlen : (codesOf segs ++ List.replicate (padCr (codesOf segs).length) 0).length % 4
        = 0 := by
      simp only [List.length_append, List.length_replicate, padCr]
      omega
    rw [crumbsToBytes_groups _ hlt hlen, foldl_groupStep_codes segs [] _,
      foldl_groupStep_zeros]
    simp

/-!
## Header serialization and parsing
-/

theorem flatten_le16_length (ps : List Nat) :
    ((ps.map le16).flatten).length = 2 * ps.length := by
  induction ps with
  | nil => rfl
  | cons p ps ih =>
    simp only [List.map_cons, List.flatten_cons, List.length_append, ih, le16,
      List.length_cons, List.length_nil]
    omega

theorem encodeHeader_length (r : ReplayRecord) :
    (encodeHeader r).length = 14 + 2 * r.snake.length := by
  unfold encodeHeader
  simp only [List.length_append, flatten_le16_length, magicBytes, le16, le32,
    List.length_cons, List.length_nil]
  omega

theorem drop_shift (pre data : List Nat) (k : Nat) :
    (pre ++ data).drop (pre.length + k) = data.drop k := by
  rw [List.drop_append_eq_append_drop, List.drop_eq_nil_of_le (by omega)]
  simp

theorem readU16le_shift (pre data : List Nat) (k : Nat) :
    readU16le (pre ++ data) (pre.length + k) = readU16le data k := by
  unfold readU16le
  rw [drop_shift]

theorem readU32le_shift (pre data : List Nat) (k : Nat) :
    readU32le (pre ++ data) (pre.length + k) = readU32le data k := by
  unfold readU32le
  rw [drop_shift]

theorem readSnake_succ (data : List Nat) (off n : Nat) :
    readSnake data off (n + 1)
      = (readU16le data off).bind (fun p =>
          (readSnake data (off + 2) n).bind (fun rest => some (p :: rest))) := rfl

theorem readSnake_shift (pre data : List Nat) :
    ∀ n k : Nat, readSnake (pre ++ data) (pre.length + k) n = readSnake data k n := by
  intro n
  induction n with
  | zero => intro k; rfl
  | succ n ih =>
    intro k
    rw [readSnake_succ, readSnake_succ, readU16le_shift]
    have harith : pre.length + k + 2 = pre.length + (k + 2) := by omega
    rw [harith, ih (k + 2)]

theorem readSnake_le16 : ∀ ps rest : List Nat, (∀ x ∈ ps, x < 65536) →
    readSnake ((ps.map le16).flatten ++ rest) 0 ps.length = some ps := by
  intro ps
  induction ps with
  | nil => intro rest _; rfl
  | cons x ps ih =>
    intro rest h
    have hx : x < 65536 := h x (by simp)
    have hshape : ((x :: ps).map le16).flatten ++ rest
        = le16 x ++ ((ps.map le16).flatten ++ rest) := by
      simp
    rw [hshape, List.length_cons, readSnake_succ]
    have hval : readU16le (le16 x ++ ((ps.map le16).flatten ++ rest)) 0
        = some x := by
      show readU16le (x % 256 :: (x / 256 % 256) :: ((ps.map le16).flatten ++ rest)) 0
          = some x
      unfold readU16le
      rw [List.drop_zero]
      show some (x % 256 + 256 * (x / 256 % 256)) = some x
      congr 1
      omega
    rw [hval, Option.some_bind]
    have h02 : (0 : Nat) + 2 = (le16 x).length + 0 := rfl
    rw [h02, readSnake_shift, ih rest (fun y hy => h y (by simp [hy]))]
    rfl

/-- The first ten bytes of the encoded header. -/
def hdr10 (r : ReplayRecord) : List Nat :=
  [83, 78, 65, 75, r.score % 256, r.score / 256 % 256, r.reason % 256,
   r.width % 256, r.height % 256, r.snake.length % 256]

theorem encodeHeader_split (r : ReplayRecord) (stream : List Nat) :
    encodeHeader r ++ stream
      = hdr10 r ++ ((r.snake.map le16).flatten ++ (le32 r.seed ++ stream)) := by
  simp [encodeHeader, hdr10, magicBytes, le16, le32]

theorem decodeBody_encode (r : ReplayRecord) (stream : List Nat)
    (hscore : r.score < 65536) (hreason : r.reason < 256) (hw : r.width < 256)
    (hh : r.height < 256) (hsn : r.snake.length < 256)
    (hsp : ∀ x ∈ r.snake, x < 65536) (hseed : r.seed < 4294967296) :
    decodeBody (encodeHeader r ++ stream)
      = some { score := r.score, reason := r.reason, width := r.width,
               height := r.height, snake := r.snake, seedTuple := [r.seed],
               segments := unpack_all stream } := by
  have hdata := encodeHeader_split r stream
  have hcons : encodeHeader r ++ stream
      = 83 :: 78 :: 65 :: 75 :: (r.score % 256) :: (r.score / 256 % 256)
          :: (r.reason % 256) :: (r.width % 256) :: (r.height % 256)
          :: (r.snake.length % 256)
          :: ((r.snake.map le16).flatten ++ (le32 r.seed ++ stream)) := by
    rw [hdata]; rfl
  have h1 : readU16le (encodeHeader r ++ stream) 4 = some r.score := by
    rw [hcons]
    unfold readU16le
    show some (r.score % 256 + 256 * (r.score / 256 % 256)) = some r.score
    congr 1
    omega
  have h2 : readU8 (encodeHeader r ++ stream) 6 = some r.reason := by
    rw [hcons]
    unfold readU8
    show some (r.reason % 256) = some r.reason
    rw [Nat.mod_eq_of_lt hreason]
  have h3 : readU8 (encodeHeader r ++ stream) 7 = some r.width := by
    rw [hcons]
    unfold readU8
    show some (r.width % 256) = some r.width
    rw [Nat.mod_eq_of_lt hw]
  have h4 : readU8 (encodeHeader r ++ stream) 8 = some r.height := by
    rw [hcons]
    unfold readU8
    show some (r.height % 256) = some r.height
    rw [Nat.mod_eq_of_lt hh]
  have h5 : readU8 (encodeHeader r ++ stream) 9 = some r.snake.length := by
    rw [hcons]
    unfold readU8
    show some (r.snake.length % 256) = some r.snake.length
    rw [Nat.mod_eq_of_lt hsn]
  have h6 : readSnake (encodeHeader r ++ stream) 10 r.snake.length = some r.snake := by
    rw [hdata]
    have h10 : (10 : Nat) = (hdr10 r).length + 0 := rfl
    rw [h10, readSnake_shift, readSnake_le16 _ _ hsp]
  have hpre_seed : encodeHeader r ++ stream
      = (hdr10 r ++ (r.snake.map le16).flatten) ++ (le32 r.seed ++ stream) := by
    rw [hdata]
    simp [List.append_assoc]
  have hlen_seed : (hdr10 r ++ (r.snake.map le16).flatten).length
      = 10 + 2 * r.snake.length := by
    rw [List.length_append, flatten_le16_length]
    simp [hdr10]
  have h7 : readU32le (encodeHeader r ++ stream) (10 + 2 * r.snake.length)
      = some r.seed := by
    rw [hpre_seed, ← hlen_seed]
    have h0 : (hdr10 r ++ (r.snake.map le16).flatten).length
        = (hdr10 r ++ (r.snake.map le16).flatten).length + 0 := by omega
    rw [h0, readU32le_shift]
    show readU32le ((r.seed % 256) :: (r.seed / 256 % 256) :: (r.seed / 65536 % 256)
        :: (r.seed / 16777216 % 256) :: stream) 0 = some r.seed
    unfold readU32le
    show some (r.seed % 256 + 256 * (r.seed / 256 % 256) + 65536 * (r.seed / 65536 % 256)
      + 16777216 * (r.seed / 16777216 % 256)) = some r.seed
    congr 1
    omega
  have h8 : (encodeHeader r ++ stream).drop (14 + 2 * r.snake.length) = stream := by
    have hlen : 14 + 2 * r.snake.length = (encodeHeader r).length + 0 := by
      rw [encodeHeader_length]
      omega
    rw [hlen, drop_shift, List.drop_zero]
  simp only [decodeBody, Option.bind_eq_bind', Option.some_bind, Option.pure_def,
    h1, h2, h3, h4, h5, h6, h7, h8]

theorem take4_magic (r : ReplayRecord) (stream : List Nat) :
    (encodeHeader r ++ stream).take 4 = magicBytes := by
  rw [encodeHeader_split]
  rfl

/-- Decoding any well-formed header followed by any segment-stream bytes
succeeds and returns the header fields (the seed as a 1-tuple) plus the
unpacked stream. -/
theorem decode_encodeHeader (r : ReplayRecord) (stream : List Nat)
    (hscore : r.score < 65536) (hreason : r.reason < 256) (hw : r.width < 256)
    (hh : r.height < 256) (hsn : r.snake.length < 256)
    (hsp : ∀ x ∈ r.snake, x < 65536) (hseed : r.seed < 4294967296) :
    decode_to_dict (encodeHeader r ++ stream)
      = .ok { score := r.score, reason := r.reason, width := r.width,
              height := r.height, snake := r.snake, seedTuple := [r.seed],
              segments := unpack_all stream } := by
  unfold decode_to_dict
  rw [if_pos (take4_magic r stream),
    decodeBody_encode r stream hscore hreason hw hh hsn hsp hseed]

/-!
## Further helper lemmas for the claims
-/

theorem foldl_groupStep_no_term (gs : List Nat) (h : ∀ g ∈ gs, g ≠ 3) :
    ∀ (d : List (List Move)) (c : List Move), (gs.foldl groupStep (d, c)).1 = d := by
  induction gs with
  | nil => intro d c; rfl
  | cons g gs ih =>
    intro d c
    show (gs.foldl groupStep (groupStep (d, c) g)).1 = d
    rw [groupStep, if_neg (h g (by simp))]
    exact ih (fun x hx => h x (by simp [hx])) d _

/-- Trailing bytes whose 2-bit groups contain no terminator never change the
decoded segment list: the symbols they encode stay in the accumulator, which
is discarded when the stream ends. -/
theorem unpack_all_append_junk (stream extra : List Nat)
    (hextra : ∀ g ∈ (extra.map byteGroups).flatten, g ≠ 3) :
    unpack_all (stream ++ extra) = unpack_all stream := by
  unfold unpack_all
  rw [List.map_append, List.flatten_append, List.foldl_append]
  rcases h0 : (stream.map byteGroups).flatten.foldl groupStep ([], []) with ⟨d0, c0⟩
  exact foldl_groupStep_no_term _ hextra d0 c0

theorem toBytesBE_getLastD (n v : Nat) (h : 1 ≤ n) :
    (toBytesBE n v).getLastD 0 = v % 256 := by
  cases n with
  | zero => omega
  | succ n =>
    show (toBytesBE n (v / 256) ++ [v % 256]).getLastD 0 = v % 256
    simp

theorem scanLen_mem (lastbyte : Nat) :
    (scanLast lastbyte).2 = 0 ∨ (scanLast lastbyte).2 = 4
      ∨ (scanLast lastbyte).2 = 6 ∨ (scanLast lastbyte).2 = 8 := by
  unfold scanLast
  split
  · simp
  split
  · simp
  split <;> simp

/-- The last byte emitted by `encode_moves_bitpacked` is the terminator just
written, shifted above `pad` zero bits, truncated to a byte. -/
theorem encode_getLastD (moves : List Move) (lastbyte : Nat) :
    (encode_moves_bitpacked moves lastbyte).getLastD 0
      = (((moves.foldl (fun (q : Nat × Nat) m => (q.1 * 4 + mapping m, q.2 + 2))
            (scanLast lastbyte)).1 * 4 + 3)
          * 2 ^ ((8 - ((scanLast lastbyte).2 + 2 * moves.length + 2) % 8) % 8)) % 256 := by
  rcases hs : scanLast lastbyte with ⟨v, L⟩
  simp only [encode_moves_bitpacked, hs, packFold]
  rw [toBytesBE_getLastD]
  omega

/-- The fresh pack of a single segment (scan of the byte `0` finds nothing). -/
theorem encode_fresh (s : List Move) :
    encode_moves_bitpacked s 0
      = crumbsToBytes (segCodes s ++ List.replicate (padCr (s.length + 1)) 0) := by
  have hscan0 : scanLast 0 = (crumbsVal ([] : List Nat), 2 * ([] : List Nat).length) := by
    decide
  have h := pack_eq s 0 [] (by intro c hc; simp at hc) hscan0
  simpa using h

/-- When the previous segment left three crumbs (six bits) of padding, the
padded last byte is `0b11000000 = 192`. -/
theorem last_byte_pad3 (B : List Nat) (hpad : (B.length + 1) % 4 = 1) :
    (crumbsToBytes ((B ++ [3])
        ++ List.replicate (padCr (B.length + 1)) 0)).getLastD 0 = 192 := by
  have h := last_byte_eq (B ++ [3]) (by simp)
  have hlen : (B ++ [3]).length = B.length + 1 := by simp
  rw [hlen] at h
  rw [h]
  have hp : padCr (B.length + 1) = 3 := by
    simp only [padCr]
    omega
  rw [hp]
  have hdrop : (B ++ [3]).drop (B.length + 1 - (4 - 3)) = [3] := by
    have h1 : B.length + 1 - (4 - 3) = B.length := by omega
    rw [h1]
    exact List.drop_left B [3]
  rw [hdrop]
  rfl

theorem packSegments_two (s1 s2 : List Move) :
    packSegments [s1, s2]
      = (encode_moves_bitpacked s1 0).dropLast
        ++ encode_moves_bitpacked s2 ((encode_moves_bitpacked s1 0).getLastD 0) := by
  show packLoop [s2] (([0] : List Nat).dropLast ++ encode_moves_bitpacked s1 0)
      ((encode_moves_bitpacked s1 0).getLastD 0) = _
  rw [show ([0] : List Nat).dropLast = [] from rfl, List.nil_append]
  rfl

theorem encode_split_seed (r : ReplayRecord) (stream : List Nat) :
    encodeHeader r ++ stream
      = (hdr10 r ++ (r.snake.map le16).flatten) ++ (le32 r.seed ++ stream) := by
  rw [encodeHeader_split]
  simp [List.append_assoc]

theorem hdr10_flatten_length (r : ReplayRecord) :
    (hdr10 r ++ (r.snake.map le16).flatten).length = 10 + 2 * r.snake.length := by
  rw [List.length_append, flatten_le16_length]
  simp [hdr10]

theorem term_byte_prop (x pad : Nat) (hx : x % 4 = 3)
    (hpad : pad = 0 ∨ pad = 2 ∨ pad = 4 ∨ pad = 6) :
    (x * 2 ^ pad) % 256 % 2 ^ pad = 0 ∧ (x * 2 ^ pad) % 256 / 2 ^ pad % 4 = 3 := by
  rcases hpad with rfl | rfl | rfl | rfl
  · have e : (2 : Nat) ^ 0 = 1 := rfl
    rw [e]
    constructor <;> omega
  · have e : (2 : Nat) ^ 2 = 4 := rfl
    rw [e]
    constructor <;> omega
  · have e : (2 : Nat) ^ 4 = 16 := rfl
    rw [e]
    constructor <;> omega
  · have e : (2 : Nat) ^ 6 = 64 := rfl
    rw [e]
    constructor <;> omega

theorem packLoop_getLastD : ∀ (segs : List (List Move)) (buf : List Nat) (last : Nat),
    segs ≠ [] → ∃ (mv : List Move) (lb : Nat),
      (packLoop segs buf last).getLastD 0 = (encode_moves_bitpacked mv lb).getLastD 0 := by
  intro segs
  induction segs with
  | nil => intro buf last h; exact absurd rfl h
  | cons seg rest ih =>
    intro buf last _
    by_cases hrest : rest = []
    · subst hrest
      refine ⟨seg, last, ?_⟩
      show (buf.dropLast ++ encode_moves_bitpacked seg last).getLastD 0 = _
      exact getLastD_append _ _ (encode_ne_nil seg last)
    · exact ih _ _ hrest

example : packSegments [[.S, .S], [.R]] = [13, 192] := by decide
example : unpack_all [13, 192] = [[.S, .S], [.R]] := by decide
example : packSegments [[], [.S]] = [48] := by decide
example : unpack_all [48] = [[.S]] := by decide
example : packSegments [] = [0] := by decide
example : unpack_all [0] = [] := by decide

/-!
## The claims
-/

/-- C1 counterexample: packing the empty segment followed by `[S]` through the
shared buffer loses the empty segment — the scan cannot detect the six bits
of padding the lone terminator left, and `encode_to_binary` pops the byte
holding it — so decoding does not return the original list. -/
theorem C1_counterexample :
    unpack_all (packSegments [[], [Move.S]]) ≠ [[], [Move.S]] := by decide

/-- C1 (amended): for every ordered list of segments in which no proper
nonempty prefix has a total packed crumb count congruent to 1 mod 4
(equivalently: no pack call except possibly the last leaves exactly six bits
of zero padding), decoding the buffer produced by packing each segment in
order with `encode_moves_bitpacked`, threading the buffer's last byte into
each call as in `encode_to_binary`, yields exactly the original list of
segments.  This covers the empty list and empty segments in positions where
the condition holds. -/
theorem C1_roundtrip_good_lists (segs : List (List Move)) (hgood : goodSegs segs) :
    unpack_all (packSegments segs) = segs :=
  unpack_packSegments segs hgood

theorem C1_roundtrip_good_lists_witness :
    goodSegs [[Move.R], [Move.L], []]
      ∧ unpack_all (packSegments [[Move.R], [Move.L], []]) = [[Move.R], [Move.L], []] :=
  ⟨by decide, C1_roundtrip_good_lists [[Move.R], [Move.L], []] (by decide)⟩

/-- The concrete record of C2's failing input: every field in range, seed
`12345`, no segments. -/
def r0C2 : ReplayRecord :=
  { score := 2, reason := 2, width := 10, height := 10, snake := [40, 41, 42],
    seed := 12345, segments := [] }

/-- C2 (evaluating the code at the failing input): decoding the encoding of a
record with seed `12345` returns every header field, but the seed comes back
as the one-element tuple `(12345,)` (the missing comma after `seed` on
ReplayHandler.py line 151 leaves the `struct.unpack_from` result unexpanded),
so `decode(encode(record))` is not equal to the record. -/
theorem C2_seed_decoded_as_tuple :
    decode_to_dict (encode_to_binary r0C2)
      = Except.ok
          { score := 2, reason := 2, width := 10, height := 10,
            snake := [40, 41, 42], seedTuple := [12345], segments := [] }
      ∧ r0C2.seed = 12345 :=
  ⟨rfl, rfl⟩

/-- C3 counterexample: a file whose segment stream is `[192, 64]` — a lone
terminator byte followed by a byte starting with the symbol bits `01` (an
`R`) and no further terminator — decodes *successfully* to one empty
segment; the trailing symbol bits are silently discarded and no
`TruncatedSegmentStream`-style error is raised (the code has no such error
path at all). -/
theorem C3_counterexample :
    decode_to_dict [83, 78, 65, 75, 0, 0, 0, 1, 1, 0, 0, 0, 0, 0, 192, 64]
      = Except.ok
          { score := 0, reason := 0, width := 1, height := 1, snake := [],
            seedTuple := [0], segments := [[]] } := rfl

/-- C3 (amended): decoding never fails on account of the segment stream:
any input with a valid header decodes successfully, and trailing bytes whose
2-bit groups contain no terminator — in particular leftover symbol bits after
the last terminator — are silently discarded without changing the decoded
segment list. -/
theorem C3_trailing_bits_silently_discarded (r : ReplayRecord)
    (stream extra : List Nat)
    (hscore : r.score < 65536) (hreason : r.reason < 256) (hw : r.width < 256)
    (hh : r.height < 256) (hsn : r.snake.length < 256)
    (hsp : ∀ x ∈ r.snake, x < 65536) (hseed : r.seed < 4294967296)
    (hextra : ∀ g ∈ (extra.map byteGroups).flatten, g ≠ 3) :
    decode_to_dict (encodeHeader r ++ (stream ++ extra))
        = decode_to_dict (encodeHeader r ++ stream)
      ∧ ∃ d, decode_to_dict (encodeHeader r ++ (stream ++ extra)) = Except.ok d := by
  have h1 := decode_encodeHeader r (stream ++ extra) hscore hreason hw hh hsn hsp hseed
  have h2 := decode_encodeHeader r stream hscore hreason hw hh hsn hsp hseed
  rw [h1, h2, unpack_all_append_junk stream extra hextra]
  exact ⟨rfl, _, rfl⟩

theorem C3_trailing_bits_silently_discarded_witness :
    decode_to_dict (encodeHeader r0C2 ++ ([192] ++ [64]))
        = decode_to_dict (encodeHeader r0C2 ++ [192])
      ∧ ∃ d, decode_to_dict (encodeHeader r0C2 ++ ([192] ++ [64])) = Except.ok d :=
  C3_trailing_bits_silently_discarded r0C2 [192] [64] (by decide) (by decide)
    (by decide) (by decide) (by decide) (by decide) (by decide) (by decide)

/-- The big-endian 2-byte representation the spec's wire contract prescribes
(spec §6, "Binary layout (big-endian ...)"), for comparison with the code's
native little-endian order. -/
def be16spec (v : Nat) : List Nat := [v / 256 % 256, v % 256]

/-- The concrete record of C4's counterexample: score `258 = 0x0102`. -/
def r4C4 : ReplayRecord :=
  { score := 258, reason := 0, width := 1, height := 1, snake := [], seed := 0,
    segments := [] }

/-- C4 counterexample: the two score bytes that encode writes at offset 4 for
score `258` are `[2, 1]` — the little-endian representation — and not the
big-endian representation `[1, 2]` the claim prescribes. -/
theorem C4_counterexample :
    ((encode_to_binary r4C4).drop 4).take 2 = [2, 1]
      ∧ be16spec r4C4.score = [1, 2]
      ∧ ((encode_to_binary r4C4).drop 4).take 2 ≠ be16spec r4C4.score := by decide

/-- C4 (amended): every multi-byte header field (2-byte score, 2-byte snake
cell positions, 4-byte seed) is serialized by encode and parsed by decode in
*little-endian* (native) byte order: the bytes written at each field's fixed
offset are the little-endian representation of the field's value, and decode
reads the same values back. -/
theorem C4_multibyte_fields_little_endian (r : ReplayRecord)
    (hscore : r.score < 65536) (hreason : r.reason < 256) (hw : r.width < 256)
    (hh : r.height < 256) (hsn : r.snake.length < 256)
    (hsp : ∀ x ∈ r.snake, x < 65536) (hseed : r.seed < 4294967296) :
    ((encode_to_binary r).drop 4).take 2 = le16 r.score
      ∧ ((encode_to_binary r).drop 10).take (2 * r.snake.length)
          = (r.snake.map le16).flatten
      ∧ ((encode_to_binary r).drop (10 + 2 * r.snake.length)).take 4 = le32 r.seed
      ∧ ∃ d, decode_to_dict (encode_to_binary r) = Except.ok d
          ∧ d.score = r.score ∧ d.snake = r.snake ∧ d.seedTuple = [r.seed] := by
  have hbin : encode_to_binary r = encodeHeader r ++ packSegments r.segments := rfl
  refine ⟨?_, ?_, ?_, ?_⟩
  · rw [hbin, encodeHeader_split]
    simp [hdr10, le16]
  · rw [hbin, encodeHeader_split]
    have h10 : (10 : Nat) = (hdr10 r).length + 0 := rfl
    rw [h10, drop_shift, List.drop_zero]
    exact List.take_left' (flatten_le16_length r.snake)
  · rw [hbin, encode_split_seed]
    have hoff : 10 + 2 * r.snake.length
        = (hdr10 r ++ (r.snake.map le16).flatten).length + 0 := by
      rw [hdr10_flatten_length]
      omega
    rw [hoff, drop_shift, List.drop_zero]
    exact List.take_left' (show (le32 r.seed).length = 4 from rfl)
  · exact ⟨_, decode_encodeHeader r (packSegments r.segments) hscore hreason hw hh
      hsn hsp hseed, rfl, rfl, rfl⟩

theorem C4_multibyte_fields_little_endian_witness :
    ((encode_to_binary r0C2).drop 4).take 2 = le16 r0C2.score
      ∧ ((encode_to_binary r0C2).drop 10).take (2 * r0C2.snake.length)
          = (r0C2.snake.map le16).flatten
      ∧ ((encode_to_binary r0C2).drop (10 + 2 * r0C2.snake.length)).take 4
          = le32 r0C2.seed
      ∧ ∃ d, decode_to_dict (encode_to_binary r0C2) = Except.ok d
          ∧ d.score = r0C2.score ∧ d.snake = r0C2.snake
          ∧ d.seedTuple = [r0C2.seed] :=
  C4_multibyte_fields_little_endian r0C2 (by decide) (by decide) (by decide)
    (by decide) (by decide) (by decide) (by decide)

/-- C5 counterexample: for the non-empty segments `[S,S,S]` and `[S]` the
combined bit length including both terminators is `12`, not a multiple of 8,
yet back-to-back packing produces 2 bytes — the same as independent packing,
not strictly fewer (the first segment is byte-aligned, so the whole last
byte is re-committed and no bits are saved). -/
theorem C5_counterexample :
    (2 * ([Move.S, Move.S, Move.S] : List Move).length + 2
        + (2 * ([Move.S] : List Move).length + 2)) % 8 ≠ 0
      ∧ ¬ ((packSegments [[Move.S, Move.S, Move.S], [Move.S]]).length
            < (encode_moves_bitpacked [Move.S, Move.S, Move.S] 0).length
              + (encode_moves_bitpacked [Move.S] 0).length) := by decide

/-- C5 (amended): packing two non-empty segments back-to-back through the
shared-buffer continuation never produces more total bytes than packing each
independently and concatenating; and it produces *strictly* fewer bytes when
the first segment's bit length including its terminator is ≡ 2 (mod 8) (the
scan then misses and the previous byte is dropped outright), or when neither
segment's bit length including its terminator is a multiple of 8 and their
residues mod 8 sum to at most 8 (a genuine tail merge).  It is not strictly
smaller for every pair whose combined bit length is not a multiple of 8. -/
theorem C5_tail_merging (s1 s2 : List Move) (hne1 : s1 ≠ []) (hne2 : s2 ≠ []) :
    (packSegments [s1, s2]).length
        ≤ (encode_moves_bitpacked s1 0).length + (encode_moves_bitpacked s2 0).length
      ∧ ((2 * s1.length + 2) % 8 = 2
          ∨ ((2 * s1.length + 2) % 8 ≠ 0 ∧ (2 * s2.length + 2) % 8 ≠ 0
              ∧ (2 * s1.length + 2) % 8 + (2 * s2.length + 2) % 8 ≤ 8) →
          (packSegments [s1, s2]).length
            < (encode_moves_bitpacked s1 0).length
              + (encode_moves_bitpacked s2 0).length) := by
  have hscan0 : (scanLast 0).2 = 0 := by decide
  have hP1len : (encode_moves_bitpacked s1 0).length = (2 * s1.length + 9) / 8 := by
    have h := encode_length s1 0
    rw [hscan0] at h
    omega
  have hP2ind : (encode_moves_bitpacked s2 0).length = (2 * s2.length + 9) / 8 := by
    have h := encode_length s2 0
    rw [hscan0] at h
    omega
  have hsc_le : (scanLast ((encode_moves_bitpacked s1 0).getLastD 0)).2 ≤ 8 :=
    scanLen_le _
  have hP2len := encode_length s2 ((encode_moves_bitpacked s1 0).getLastD 0)
  have hmerged : (packSegments [s1, s2]).length
      = (encode_moves_bitpacked s1 0).length - 1
        + (encode_moves_bitpacked s2 ((encode_moves_bitpacked s1 0).getLastD 0)).length := by
    rw [packSegments_two, List.length_append, List.length_dropLast]
  have hfresh := encode_fresh s1
  have hmap : (s1.map mapping).length = s1.length := by simp
  constructor
  · rw [hmerged, hP1len, hP2len, hP2ind]
    omega
  · intro hcond
    by_cases hA : (2 * s1.length + 2) % 8 = 2
    · have hmod : ((s1.map mapping).length + 1) % 4 = 1 := by
        rw [hmap]
        omega
      have h192 : (encode_moves_bitpacked s1 0).getLastD 0 = 192 := by
        rw [hfresh]
        have hseg : segCodes s1 = s1.map mapping ++ [3] := rfl
        rw [hseg]
        have hlen1 : s1.length + 1 = (s1.map mapping).length + 1 := by rw [hmap]
        rw [hlen1]
        exact last_byte_pad3 (s1.map mapping) hmod
      have hsc : (scanLast ((encode_moves_bitpacked s1 0).getLastD 0)).2 = 0 := by
        rw [h192]
        decide
      rw [hmerged, hP1len, hP2ind]
      rw [hsc] at hP2len
      rw [hP2len]
      omega
    · have hcond' : (2 * s1.length + 2) % 8 ≠ 0 ∧ (2 * s2.length + 2) % 8 ≠ 0
          ∧ (2 * s1.length + 2) % 8 + (2 * s2.length + 2) % 8 ≤ 8 := by
        rcases hcond with h | h
        · exact absurd h hA
        · exact h
      have hmod : ((s1.map mapping).length + 1) % 4 ≠ 1 := by
        rw [hmap]
        omega
      have hscan := scan_of_good (s1.map mapping) hmod
      have hsc : (scanLast ((encode_moves_bitpacked s1 0).getLastD 0)).2
          = 2 * (4 - padCr ((s1.map mapping).length + 1)) := by
        rw [hfresh]
        have hseg : segCodes s1 = s1.map mapping ++ [3] := rfl
        rw [hseg]
        have hlen1 : s1.length + 1 = (s1.map mapping).length + 1 := by rw [hmap]
        rw [hlen1, hscan]
      have hpdef : padCr ((s1.map mapping).length + 1)
          = (4 - ((s1.map mapping).length + 1) % 4) % 4 := rfl
      rw [hmerged, hP1len, hP2ind]
      rw [hsc] at hP2len
      rw [hP2len]
      omega

theorem C5_tail_merging_witness :
    (packSegments [[Move.S], [Move.S]]).length
        ≤ (encode_moves_bitpacked [Move.S] 0).length
          + (encode_moves_bitpacked [Move.S] 0).length
      ∧ (packSegments [[Move.S], [Move.S]]).length
          < (encode_moves_bitpacked [Move.S] 0).length
            + (encode_moves_bitpacked [Move.S] 0).length :=
  ⟨(C5_tail_merging [Move.S] [Move.S] (by decide) (by decide)).1,
   (C5_tail_merging [Move.S] [Move.S] (by decide) (by decide)).2 (by decide)⟩

/-- C6: after every call to `encode_moves_bitpacked` the emitted byte list is
non-empty and its last byte consists of the just-written terminator code `11`
at an even (2-bit-aligned) bit offset `pad ∈ {0,2,4,6}` — exactly the zero
padding the call appended — with only zero bits below it; and this invariant
holds for the shared buffer after each segment is packed in
`encode_to_binary`'s loop (the buffer after `k+1` segments being
`packSegments` of the first `k+1` segments). -/
theorem C6_last_byte_terminator_invariant :
    (∀ (moves : List Move) (lastbyte : Nat),
        encode_moves_bitpacked moves lastbyte ≠ []
        ∧ ((8 - ((scanLast lastbyte).2 + 2 * moves.length + 2) % 8) % 8 = 0
            ∨ (8 - ((scanLast lastbyte).2 + 2 * moves.length + 2) % 8) % 8 = 2
            ∨ (8 - ((scanLast lastbyte).2 + 2 * moves.length + 2) % 8) % 8 = 4
            ∨ (8 - ((scanLast lastbyte).2 + 2 * moves.length + 2) % 8) % 8 = 6)
        ∧ (encode_moves_bitpacked moves lastbyte).getLastD 0
            % 2 ^ ((8 - ((scanLast lastbyte).2 + 2 * moves.length + 2) % 8) % 8) = 0
        ∧ (encode_moves_bitpacked moves lastbyte).getLastD 0
            / 2 ^ ((8 - ((scanLast lastbyte).2 + 2 * moves.length + 2) % 8) % 8) % 4 = 3)
      ∧ (∀ (segs : List (List Move)) (k : Nat), k < segs.length →
          ∃ pad, (pad = 0 ∨ pad = 2 ∨ pad = 4 ∨ pad = 6)
            ∧ (packSegments (segs.take (k + 1))).getLastD 0 % 2 ^ pad = 0
            ∧ (packSegments (segs.take (k + 1))).getLastD 0 / 2 ^ pad % 4 = 3) := by
  have main : ∀ (moves : List Move) (lastbyte : Nat),
      ((8 - ((scanLast lastbyte).2 + 2 * moves.length + 2) % 8) % 8 = 0
        ∨ (8 - ((scanLast lastbyte).2 + 2 * moves.length + 2) % 8) % 8 = 2
        ∨ (8 - ((scanLast lastbyte).2 + 2 * moves.length + 2) % 8) % 8 = 4
        ∨ (8 - ((scanLast lastbyte).2 + 2 * moves.length + 2) % 8) % 8 = 6)
      ∧ (encode_moves_bitpacked moves lastbyte).getLastD 0
          % 2 ^ ((8 - ((scanLast lastbyte).2 + 2 * moves.length + 2) % 8) % 8) = 0
      ∧ (encode_moves_bitpacked moves lastbyte).getLastD 0
          / 2 ^ ((8 - ((scanLast lastbyte).2 + 2 * moves.length + 2) % 8) % 8) % 4 = 3 := by
    intro moves lastbyte
    have hmem : (8 - ((scanLast lastbyte).2 + 2 * moves.length + 2) % 8) % 8 = 0
        ∨ (8 - ((scanLast lastbyte).2 + 2 * moves.length + 2) % 8) % 8 = 2
        ∨ (8 - ((scanLast lastbyte).2 + 2 * moves.length + 2) % 8) % 8 = 4
        ∨ (8 - ((scanLast lastbyte).2 + 2 * moves.length + 2) % 8) % 8 = 6 := by
      rcases scanLen_mem lastbyte with h | h | h | h <;> omega
    have hx : ((moves.foldl (fun (q : Nat × Nat) m => (q.1 * 4 + mapping m, q.2 + 2))
        (scanLast lastbyte)).1 * 4 + 3) % 4 = 3 := by omega
    have hprop := term_byte_prop _ _ hx hmem
    rw [← encode_getLastD moves lastbyte] at hprop
    exact ⟨hmem, hprop.1, hprop.2⟩
  constructor
  · intro moves lastbyte
    exact ⟨encode_ne_nil moves lastbyte, (main moves lastbyte).1,
      (main moves lastbyte).2.1, (main moves lastbyte).2.2⟩
  · intro segs k hk
    have hne : segs.take (k + 1) ≠ [] := by
      intro hnil
      have h0 : (segs.take (k + 1)).length = 0 := by rw [hnil]; rfl
      rw [List.length_take] at h0
      omega
    obtain ⟨mv, lb, hlast⟩ := packLoop_getLastD (segs.take (k + 1)) [0] 0 hne
    have hconv : (packSegments (segs.take (k + 1))).getLastD 0
        = (encode_moves_bitpacked mv lb).getLastD 0 := hlast
    refine ⟨(8 - ((scanLast lb).2 + 2 * mv.length + 2) % 8) % 8,
      (main mv lb).1, ?_, ?_⟩
    · rw [hconv]
      exact (main mv lb).2.1
    · rw [hconv]
      exact (main mv lb).2.2

theorem C6_last_byte_terminator_invariant_witness :
    ∃ pad, (pad = 0 ∨ pad = 2 ∨ pad = 4 ∨ pad = 6)
      ∧ (packSegments (([[Move.S]] : List (List Move)).take (0 + 1))).getLastD 0
          % 2 ^ pad = 0
      ∧ (packSegments (([[Move.S]] : List (List Move)).take (0 + 1))).getLastD 0
          / 2 ^ pad % 4 = 3 :=
  C6_last_byte_terminator_invariant.2 [[Move.S]] 0 (by decide)

/-- C7: the continuation scan checks the byte's 2-bit groups at exactly the
three candidate padding lengths 0, 2 and 4 bits: if the lowest-order group
equal to the terminator code `11` is at group `i ∈ {0,1,2}` from the
least-significant end, the scan commits the bits at and above it
(`bits = b >> 2i`, `bit_len = 8 - 2i`); if no terminator is found at those
three offsets it starts a fresh byte with commit length 0 — in particular
for the byte `0b11000000 = 192` left by a previous segment with exactly six
bits of padding. -/
theorem C7_scan_three_candidate_offsets :
    (∀ b i : Nat, i < 3 → b / 4 ^ i % 4 = 3 → (∀ j, j < i → b / 4 ^ j % 4 ≠ 3) →
        scanLast b = (b / 4 ^ i, 8 - 2 * i))
      ∧ (∀ b : Nat, (∀ i, i < 3 → b / 4 ^ i % 4 ≠ 3) → scanLast b = (0, 0))
      ∧ scanLast 192 = (0, 0) := by
  refine ⟨?_, ?_, by decide⟩
  · intro b i hi h3 hlow
    interval_cases i
    · have hb : b % 4 = 3 := by simpa using h3
      show scanLast b = (b / 4 ^ 0, 8 - 2 * 0)
      simp only [pow_zero, Nat.div_one]
      unfold scanLast
      rw [if_pos hb]
    · have hb0 : ¬ b % 4 = 3 := by simpa using hlow 0 (by omega)
      have hb1 : b / 4 % 4 = 3 := by simpa using h3
      show scanLast b = (b / 4 ^ 1, 8 - 2 * 1)
      simp only [pow_one]
      unfold scanLast
      rw [if_neg hb0, if_pos hb1]
    · have hb0 : ¬ b % 4 = 3 := by simpa using hlow 0 (by omega)
      have hb1 : ¬ b / 4 % 4 = 3 := by simpa using hlow 1 (by omega)
      have hb2 : b / 16 % 4 = 3 := by
        have := h3
        norm_num at this ⊢
        exact this
      show scanLast b = (b / 4 ^ 2, 8 - 2 * 2)
      have h16 : (4 : Nat) ^ 2 = 16 := by norm_num
      rw [h16]
      unfold scanLast
      rw [if_neg hb0, if_neg hb1, if_pos hb2]
  · intro b h
    have hb0 : ¬ b % 4 = 3 := by simpa using h 0 (by omega)
    have hb1 : ¬ b / 4 % 4 = 3 := by simpa using h 1 (by omega)
    have hb2 : ¬ b / 16 % 4 = 3 := by
      have := h 2 (by omega)
      norm_num at this ⊢
      exact this
    unfold scanLast
    rw [if_neg hb0, if_neg hb1, if_neg hb2]

theorem C7_scan_three_candidate_offsets_witness :
    scanLast 48 = (48 / 4 ^ 2, 8 - 2 * 2) ∧ scanLast 5 = (0, 0) :=
  ⟨C7_scan_three_candidate_offsets.1 48 2 (by decide) (by decide) (by decide),
   C7_scan_three_candidate_offsets.2.1 5 (by decide)⟩

/-- C8: the segments `[[S,S], [R]]` pack through the shared-buffer
continuation into exactly 2 bytes — 6 bits for the first segment including
its terminator merged with 4 bits for the second including its terminator is
10 bits, rounded up to 2 bytes (the bytes being `0x0D 0xC0`). -/
theorem C8_concrete_two_bytes :
    packSegments [[Move.S, Move.S], [Move.R]] = [13, 192]
      ∧ (packSegments [[Move.S, Move.S], [Move.R]]).length = 2 := by decide

/-- C9: decode checks the 4-byte magic tag `b"SNAK"` first: for every input
whose first 4 bytes differ from it (including a tag altered by a single bit)
decoding stops immediately with the invalid-format `ValueError` and parses
nothing further, and for every input whose first 4 bytes equal the tag no
such error is ever produced (any later failure is a different, struct-level
error). -/
theorem C9_magic_check :
    (∀ data : List Nat, data.take 4 ≠ magicBytes →
        decode_to_dict data = Except.error DecodeError.invalidMagic)
      ∧ (∀ data : List Nat, data.take 4 = magicBytes →
          decode_to_dict data ≠ Except.error DecodeError.invalidMagic) := by
  constructor
  · intro data h
    unfold decode_to_dict
    rw [if_neg h]
  · intro data h
    unfold decode_to_dict
    rw [if_pos h]
    cases decodeBody data <;> simp

theorem C9_magic_check_witness :
    decode_to_dict [83, 78, 65, 74, 0, 0, 0, 0, 0, 0, 0, 0, 0, 0, 0]
        = Except.error DecodeError.invalidMagic
      ∧ decode_to_dict [83, 78, 65, 75]
          ≠ Except.error DecodeError.invalidMagic :=
  ⟨C9_magic_check.1 [83, 78, 65, 74, 0, 0, 0, 0, 0, 0, 0, 0, 0, 0, 0] (by decide),
   C9_magic_check.2 [83, 78, 65, 75] (by decide)⟩

/-- C10: for every record with an empty segment list (and fields in the
ranges `struct.pack` accepts), encode emits the fixed header followed by
exactly one extra zero byte — the continuation placeholder that only the
first pack call would have removed — so the output is one byte longer than
the header; decoding that output still returns an empty segment list. -/
theorem C10_empty_segments_placeholder_byte (r : ReplayRecord)
    (hseg : r.segments = [])
    (hscore : r.score < 65536) (hreason : r.reason < 256) (hw : r.width < 256)
    (hh : r.height < 256) (hsn : r.snake.length < 256)
    (hsp : ∀ x ∈ r.snake, x < 65536) (hseed : r.seed < 4294967296) :
    encode_to_binary r = encodeHeader r ++ [0]
      ∧ (encode_to_binary r).length = (encodeHeader r).length + 1
      ∧ decode_to_dict (encode_to_binary r)
          = Except.ok
              { score := r.score, reason := r.reason, width := r.width,
                height := r.height, snake := r.snake, seedTuple := [r.seed],
                segments := [] } := by
  have henc : encode_to_binary r = encodeHeader r ++ [0] := by
    unfold encode_to_binary
    rw [hseg]
    rfl
  refine ⟨henc, ?_, ?_⟩
  · rw [henc]
    simp
  · rw [henc, decode_encodeHeader r [0] hscore hreason hw hh hsn hsp hseed]
    have hnil : unpack_all [0] = [] := by decide
    rw [hnil]

theorem C10_empty_segments_placeholder_byte_witness :
    encode_to_binary r4C4 = encodeHeader r4C4 ++ [0]
      ∧ (encode_to_binary r4C4).length = (encodeHeader r4C4).length + 1
      ∧ decode_to_dict (encode_to_binary r4C4)
          = Except.ok
              { score := r4C4.score, reason := r4C4.reason, width := r4C4.width,
                height := r4C4.height, snake := r4C4.snake,
                seedTuple := [r4C4.seed], segments := [] } :=
  C10_empty_segments_placeholder_byte r4C4 rfl (by decide) (by decide) (by decide)
    (by decide) (by decide) (by decide) (by decide)
